import Mathlib

/-!
Verification of the signal-effect reactive-value library.

This file gives a shallow embedding of the library's dependency graph and
recomputation engine and proves the specified properties about it.

The embedding covers two iterations of the engine found in the repository:

* Model A (`SignalSpec`): the iteration in `src/signal.ts` (its final half —
  `sgetValue`, `getValue`, `checkDerivedNode`, `checkEffectNode`,
  `calcDerivedNode`, `actEffectNode`, the reentry flags and the version
  clock).  Signal values are modelled as `Option Int` where `none` plays the
  role of JavaScript `undefined`/`null`; `truthy` models JavaScript
  truthiness of an optional argument.  The per-node mutable fields
  (`value`, `current`, `checked`) are keyed by node id in a state record,
  together with the process-wide clock.  A ghost field `execs` counts, per
  node id, how often that node's user callback ran (the "counter incremented
  inside the callback" of the spec), and a ghost list `events` records the
  writes that reached the execution-handler notification point.

* Model B (`PartB`): the final iteration (the `part_002` source, classes
  `SignalNode`/`DependentNode`/`DerivedNode`/`EffectNode`) restricted to a
  single fixed-dependency dependent node over its source signals, with the
  `dirty`/`dropped`/`visited` flags and the reverse `dependents` links, used
  for the drop and cycle-detection properties; plus a fuelled embedding of a
  dynamic node whose callback re-enters its own facade.

* Model S (`SuspendSpec`): the suspend/resume behaviour, modelled from the
  spec because the suspend implementation is not part of the sources (only
  its tests are).
-/

namespace SignalSpec

/-- Errors surfaced by the library: `TypeError` on writing a readonly or
derived facade, `ReentryError` (a subclass of `SignalError`), plain
`SignalError` contract violations, `SuspendError`, and a fuel marker used
only by the fuelled embedding of self-referencing callbacks. -/
inductive JErr where
  | typeErr (msg : String)
  | reentry (msg : String)
  | signalErr (msg : String)
  | suspendErr (msg : String)
  | fuelOut
  deriving DecidableEq, Repr

/-- `ERR_REENTRY_READ` of `signal.ts`. -/
def ERR_REENTRY_READ : String :=
  "Reading a signal manually within a derived/effect callback is not allowed. Pass the signal as a dependency instead."

/-- `ERR_REENTRY_WRITE` of `signal.ts`. -/
def ERR_REENTRY_WRITE : String :=
  "Writing to a signal within a derived callback is not allowed"

/-- Result of calling a signal facade: a read yields the stored value
(possibly `undefined`, i.e. `none`), a write yields JavaScript `void`. -/
inductive RW where
  | rval (v : Option Int)
  | wdone
  deriving DecidableEq, Repr

/-- The call-tracking flags of `signal.ts`: `denyReentry` and
`allowReentryReadWrite`. -/
structure Guard where
  denyReentry : Bool
  allowReentryReadWrite : Bool
  deriving DecidableEq, Repr

/-- Flag state outside any callback. -/
def topGuard : Guard := ⟨false, false⟩

/-- Flag state installed by `calcDerivedNode` around a derived calculation:
`denyReentry = true`, `allowReentryReadWrite = false`. -/
def derivedCallbackGuard : Guard := ⟨true, false⟩

/-- Flag state installed by `actEffectNode` around an effect action:
`denyReentry = true`, `allowReentryReadWrite = true`. -/
def effectCallbackGuard : Guard := ⟨true, true⟩

/-- JavaScript truthiness of the optional facade argument, for integer-valued
signals: `undefined`/`null` and `0` are falsy. -/
def truthy : Option Int → Bool
  | none => false
  | some v => v != 0

/-- Mutable engine state: the process-wide version clock `seqN` and, keyed by
node id, the stored/cached `value`, the `current` version stamp and the
`checked` version stamp.  `execs` is a ghost per-id counter of user-callback
executions and `events` a ghost log of the writes that reached the
execution-handler notification point. -/
structure St where
  clock : Nat
  value : Nat → Option Int
  current : Nat → Nat
  checked : Nat → Nat
  execs : Nat → Nat
  events : List Nat

/-- Pointwise update of an id-keyed field. -/
def upd {α : Type} (f : Nat → α) (i : Nat) (v : α) : Nat → α :=
  fun j => if j = i then v else f j

/-- The state produced by an actual value change in `sgetValue`: the value
is stored, the node stamped with `nextN()`, and the write reaches the
execution-handler notification point. -/
def stWrite (i : Nat) (v : Int) (st : St) : St :=
  { st with
      value := upd st.value i (some v)
      current := upd st.current i (st.clock + 1)
      clock := st.clock + 1
      events := i :: st.events }

/-- `sgetValue` of `signal.ts`: get or set value on a writable value node.
The argument `none` models a call with `undefined`/`null` (JavaScript's
`value == undefined` loose equality), which is treated as a read.  Writes of
a `Object.is`-same value return before any mutation or notification.  An
actual change stores the value, stamps the node with `nextN()` and reaches
the execution-handler notification point (recorded in `events`). -/
def sgetValue (g : Guard) (i : Nat) (arg : Option Int) (st : St) :
    St × Except JErr RW :=
  if g.denyReentry && !g.allowReentryReadWrite then
    (st, .error (.reentry (if arg = none then ERR_REENTRY_READ else ERR_REENTRY_WRITE)))
  else
    match arg with
    | none => (st, .ok (.rval (st.value i)))
    | some v =>
      if st.value i = some v then (st, .ok .wdone)
      else (stWrite i v st, .ok .wdone)

/-- `getValue` of `signal.ts`: read of a readonly facade.  A truthy argument
throws `TypeError`; otherwise the reentry flags are consulted and the value
returned. -/
def getValue (g : Guard) (i : Nat) (arg : Option Int) (st : St) :
    St × Except JErr RW :=
  if truthy arg then (st, .error (.typeErr "Cannot modify a readonly signal"))
  else if g.denyReentry && !g.allowReentryReadWrite then
    (st, .error (.reentry ERR_REENTRY_READ))
  else (st, .ok (.rval (st.value i)))

/-- The static dependency graph: a value node is a source signal (a leaf,
identified by its id) or a derived node with its id, its direct dependency
list and its calculation callback (already in the `(args : any[]) => T`
form the constructor wraps user callbacks into). -/
inductive VNode where
  | sig (id : Nat)
  | der (id : Nat) (deps : List VNode) (fn : List Int → Int)

/-- Node id. -/
def vid : VNode → Nat
  | .sig i => i
  | .der i _ _ => i

mutual

/-- `addWritableDependencies` of `signal.ts`: the transitive source signals
(the `triggers` field), expanding derived dependencies. -/
def triggers : VNode → List Nat
  | .sig i => [i]
  | .der _ deps _ => triggersList deps

def triggersList : List VNode → List Nat
  | [] => []
  | d :: ds => triggers d ++ triggersList ds

end

/-- `triggers.reduce((x, c) => x.current > c.current ? x : c).current`: the
maximal `current` stamp over a trigger list (the list is nonempty for every
constructed node, so the fold with base `0` agrees with the `reduce`). -/
def maxTrig (st : St) (ts : List Nat) : Nat :=
  ts.foldl (fun m j => max m (st.current j)) 0

mutual

/-- All value nodes occurring in a node (itself included). -/
def subs : VNode → List VNode
  | .sig i => [.sig i]
  | .der i deps f => .der i deps f :: subsList deps

def subsList : List VNode → List VNode
  | [] => []
  | d :: ds => subs d ++ subsList ds

end

mutual

/-- Ids of the derived nodes occurring in a node. -/
def derIds : VNode → List Nat
  | .sig _ => []
  | .der i deps _ => i :: derIdsList deps

def derIdsList : List VNode → List Nat
  | [] => []
  | d :: ds => derIds d ++ derIdsList ds

end

mutual

/-- The mathematical reading of a node: the pure function of the latest
source-signal values that a glitch-free read must produce. -/
def denote (st : St) : VNode → Int
  | .sig i => (st.value i).getD 0
  | .der _ deps f => f (denoteList st deps)

def denoteList (st : St) : List VNode → List Int
  | [] => []
  | d :: ds => denote st d :: denoteList st ds

end

mutual

/-- `checkDerivedNode`/`checkDependentNode` of `signal.ts`, on the value
node itself: a source signal simply yields `x.value!`; a derived node runs
the check-and-recompute protocol, recursing into its dependencies when the
triggers moved past its `checked` stamp.  The ghost counter `execs` is
bumped at the node's id exactly when its calculation runs. -/
def checkValueNode : VNode → St → Nat → St × Int
  | .sig j, st, _ => (st, (st.value j).getD 0)
  | .der i deps f, st, check =>
    if st.checked i < check then
      let mx := maxTrig st (triggersList deps)
      if st.checked i < mx then
        let r := checkDeps deps st check
        let v := f r.2
        let st2 := { r.1 with
            value := upd r.1.value i (some v)
            current := upd r.1.current i mx
            execs := upd r.1.execs i (r.1.execs i + 1) }
        ({ st2 with checked := upd st2.checked i check }, v)
      else
        ({ st with checked := upd st.checked i check }, (st.value i).getD 0)
    else (st, (st.value i).getD 0)

/-- `self.dependencies.map((x) => isDerivedNode(x) ? checkDerivedNode(x, check) : x.value!)`. -/
def checkDeps : List VNode → St → Nat → St × List Int
  | [], st, _ => (st, [])
  | d :: ds, st, check =>
    let r1 := checkValueNode d st check
    let r2 := checkDeps ds r1.1 check
    (r2.1, r1.2 :: r2.2)

end

/-- `checkDerivedNode` proper, taking the derived node's fields. -/
def checkDerivedNode (i : Nat) (deps : List VNode) (f : List Int → Int)
    (st : St) (check : Nat) : St × Int :=
  checkValueNode (.der i deps f) st check

/-- The state produced by the middle branch of `checkDerivedNode` (sources
unchanged since `current`, only `checked` advances). -/
def stSkip (i : Nat) (st : St) (check : Nat) : St :=
  { st with checked := upd st.checked i check }

/-- The state produced by the recompute branch of `checkDerivedNode`. -/
def stRecompute (i : Nat) (deps : List VNode) (f : List Int → Int)
    (st : St) (check : Nat) : St :=
  { (checkDeps deps st check).1 with
      value := upd (checkDeps deps st check).1.value i
        (some (f (checkDeps deps st check).2))
      current := upd (checkDeps deps st check).1.current i
        (maxTrig st (triggersList deps))
      execs := upd (checkDeps deps st check).1.execs i
        ((checkDeps deps st check).1.execs i + 1)
      checked := upd (checkDeps deps st check).1.checked i check }

/-- An effect node: id, direct dependencies and (ghost) action, which is
modelled only through the `execs` counter since its interaction with the
engine happens via the reentry flags. -/
structure ENode where
  id : Nat
  deps : List VNode

/-- `checkEffectNode` of `signal.ts`: same protocol as a derived node but
with no cached value; the action run is recorded in `execs`. -/
def checkEffectNode (e : ENode) (st : St) (check : Nat) : St :=
  if st.checked e.id < check then
    let mx := maxTrig st (triggersList e.deps)
    if st.checked e.id < mx then
      let r := checkDeps e.deps st check
      let st2 := { r.1 with
          execs := upd r.1.execs e.id (r.1.execs e.id + 1)
          current := upd r.1.current e.id mx }
      { st2 with checked := upd st2.checked e.id check }
    else { st with checked := upd st.checked e.id check }
  else st

/-- `calcDerivedNode` of `signal.ts`: the derived facade.  A truthy argument
throws `TypeError`; a read during a forbidden context throws `ReentryError`;
otherwise the check runs at `currN()` (the callback itself runs under
`derivedCallbackGuard`, restored afterwards). -/
def calcDerivedNode (g : Guard) (i : Nat) (deps : List VNode)
    (f : List Int → Int) (arg : Option Int) (st : St) :
    St × Except JErr Int :=
  if truthy arg then (st, .error (.typeErr "Cannot modify a derived signal"))
  else if g.denyReentry && !g.allowReentryReadWrite then
    (st, .error (.reentry ERR_REENTRY_READ))
  else
    let r := checkValueNode (.der i deps f) st st.clock
    (r.1, .ok r.2)

/-- `actEffectNode` of `signal.ts`: the effect facade.  Any `denyReentry`
context throws `ReentryError`; otherwise the check runs at `currN()` (the
action itself runs under `effectCallbackGuard`, restored afterwards). -/
def actEffectNode (g : Guard) (e : ENode) (st : St) :
    St × Except JErr Unit :=
  if g.denyReentry then (st, .error (.reentry ERR_REENTRY_READ))
  else (checkEffectNode e st st.clock, .ok ())

/-- Coherence of one node's cache: whenever the node's triggers have not
moved past its `checked` stamp, its cache holds the denotation. -/
def cohAt (st : St) : VNode → Prop
  | .sig _ => True
  | .der i deps f =>
    maxTrig st (triggersList deps) ≤ st.checked i →
      st.value i = some (f (denoteList st deps))

/-- Version stamps are bounded by the clock. -/
def clockAt (st : St) : VNode → Prop
  | .sig j => st.current j ≤ st.clock
  | .der i _ _ => st.checked i ≤ st.clock

/-- Coherence over a universe of nodes. -/
def Coh (U : List VNode) (st : St) : Prop := ∀ m ∈ subsList U, cohAt st m

/-- Clock bounds over a universe of nodes. -/
def ClockInv (U : List VNode) (st : St) : Prop := ∀ m ∈ subsList U, clockAt st m

/-- Node ids determine nodes: every node of the universe is recovered from
its id by the environment `env` (node ids are allocated by a process-unique
counter in the sources). -/
def Agree (env : Nat → VNode) (U : List VNode) : Prop :=
  ∀ m ∈ subsList U, env (vid m) = m

/-- Frame of a recomputation: the clock and the event log are untouched and
every id outside `touched` keeps all its fields. -/
def framePost (st st' : St) (touched : List Nat) : Prop :=
  st'.clock = st.clock ∧ st'.events = st.events ∧
    ∀ j, j ∉ touched →
      st'.value j = st.value j ∧ st'.current j = st.current j ∧
        st'.checked j = st.checked j ∧ st'.execs j = st.execs j

end SignalSpec

namespace PartB

/-- State of the final iteration (`part_002`) restricted to one
fixed-dependency dependent node over its source signals: the clock, the
signals' values and `current` stamps, whether the node's weak reference is
still present in each signal's `dependents` (`_out`) map, and the node's
`DependentNode` fields `_dirty`, `_dropped`, `visited`, `checked`,
`current` plus the derived cache `_value` and a ghost callback counter. -/
structure BSt where
  clock : Nat
  sval : Nat → Int
  scur : Nat → Nat
  linked : Nat → Bool
  dirty : Bool
  dropped : Bool
  visited : Bool
  checked : Nat
  current : Nat
  dval : Option Int
  execs : Nat

/-- `Node.notify` of `part_002`, for a write to signal `k` at stamp `n`,
restricted to the single dependent node: a dead or dropped dependent is
deleted from `_out`; a live one is `alert`ed, setting
`_dirty = current > this.current`.  The `Manual` handler's `changed` is a
no-op. -/
def notifyB (k : Nat) (n : Nat) (st : BSt) : BSt :=
  if st.linked k then
    if st.dropped then { st with linked := fun j => if j = k then false else st.linked j }
    else { st with dirty := decide (st.current < n) }
  else st

/-- `SignalNode.wfun` of `part_002` on the write path (top level, so
`track.nowrite = false`): an `Object.is`-same value is a no-op; otherwise
the value is stored, the signal stamped with `nextN()` and the queued
`notify` runs on `exit()`. -/
def wfunB (k : Nat) (v : Int) (st : BSt) : BSt :=
  if st.sval k = v then st
  else
    notifyB k (st.clock + 1)
      { st with
          sval := fun j => if j = k then v else st.sval j
          scur := fun j => if j = k then st.clock + 1 else st.scur j
          clock := st.clock + 1 }

/-- `DerivedNode.value`/`FixedDerivedNode.do` of `part_002` invoked through
the facade (`fun`, with `check = currN()`): loop guard, then recompute only
if not dropped, not already checked at this version, and dirty.  `do` reads
the dependency values, runs the callback (with `visited` set during the run
and restored after, ghost-counted in `execs`) and `update`s `current` to the
maximal dependency stamp; the node's own `_out` is empty, so its
end-of-`do` notification does not change this state. -/
def invokeDerB (deps : List Nat) (cb : List Int → Int) (st : BSt) :
    BSt × Except SignalSpec.JErr Int :=
  if st.visited then (st, .error (.reentry "Recursive loop detected"))
  else if st.dropped = false ∧ st.checked < st.clock then
    if st.dirty then
      let v := cb (deps.map st.sval)
      ({ st with
          execs := st.execs + 1
          dval := some v
          current := (deps.map st.scur).foldl max st.current
          dirty := false
          checked := st.clock }, .ok v)
    else ({ st with checked := st.clock }, .ok (st.dval.getD 0))
  else (st, .ok (st.dval.getD 0))

/-- `EffectNode.fun`/`FixedEffectNode.do` of `part_002` invoked at top
level (`track.nocall = false`): same shape as a derived node without the
value cache. -/
def invokeEffB (deps : List Nat) (st : BSt) :
    BSt × Except SignalSpec.JErr Unit :=
  if st.visited then (st, .error (.reentry "Recursive loop detected"))
  else if st.dropped = false ∧ st.checked < st.clock then
    if st.dirty then
      ({ st with
          execs := st.execs + 1
          current := (deps.map st.scur).foldl max st.current
          dirty := false
          checked := st.clock }, .ok ())
    else ({ st with checked := st.clock }, .ok ())
  else (st, .ok ())

/-- `DependentNode.drop` of `part_002`: sets `_dropped`, one-way. -/
def dropB (st : BSt) : BSt := { st with dropped := true }

/-- The operations any caller (directly or through an execution strategy or
a bulk `update`) can perform on this restricted graph. -/
inductive BOp where
  | write (k : Nat) (v : Int)
  | invoke
  | dropIt

/-- One step of the derived-node machine. -/
def stepB (deps : List Nat) (cb : List Int → Int) : BOp → BSt → BSt
  | .write k v, st => wfunB k v st
  | .invoke, st => (invokeDerB deps cb st).1
  | .dropIt, st => dropB st

/-- A sequence of operations on the derived-node machine. -/
def runB (deps : List Nat) (cb : List Int → Int) (ops : List BOp) (st : BSt) : BSt :=
  ops.foldl (fun s o => stepB deps cb o s) st

/-- One step of the effect-node machine. -/
def stepBE (deps : List Nat) : BOp → BSt → BSt
  | .write k v, st => wfunB k v st
  | .invoke, st => (invokeEffB deps st).1
  | .dropIt, st => dropB st

/-- A sequence of operations on the effect-node machine. -/
def runBE (deps : List Nat) (ops : List BOp) (st : BSt) : BSt :=
  ops.foldl (fun s o => stepBE deps o s) st

/-- State of one dynamic dependent node of `part_002` whose callback
re-enters its own facade. -/
structure CSt where
  clock : Nat
  visited : Bool
  dirty : Bool
  dropped : Bool
  checked : Nat
  current : Nat
  dval : Option Int
  execs : Nat
  deriving DecidableEq, Repr

/-- `DynamicDerivedNode` of `part_002` whose calculation reads this same
derived's facade (`fun() → value(currN())`), with explicit fuel for the
re-entrant call.  `value(check)` throws `ReentryError("Recursive loop
detected")` when `visited` is set; otherwise `do` runs the callback with
`visited` set, clearing it in the `finally` both when the callback throws
(the exception then aborts `do`, leaving `_dirty` set and `checked`
unadvanced) and when it returns (then the cache, `_dirty` and `checked`
are updated as in the source; unreachable for a self-referencing
callback). -/
def selfDerivedValue : Nat → CSt → CSt × Except SignalSpec.JErr Int
  | 0, st => (st, .error .fuelOut)
  | fuel + 1, st =>
    if st.visited then (st, .error (.reentry "Recursive loop detected"))
    else if st.dropped = false ∧ st.checked < st.clock then
      if st.dirty then
        let r := selfDerivedValue fuel { st with visited := true, execs := st.execs + 1 }
        let st3 := { r.1 with visited := false }
        match r.2 with
        | .error e => (st3, .error e)
        | .ok v =>
          ({ st3 with dval := some v, dirty := false, checked := st3.clock }, .ok v)
      else ({ st with checked := st.clock }, .ok (st.dval.getD 0))
    else (st, .ok (st.dval.getD 0))

/-- `DynamicEffectNode` of `part_002` whose action invokes this same
effect's facade, with explicit fuel.  `fun()` checks `visited` (loop
detection) before `track.nocall`; during `do` the track has
`nocall = true`, so the self-invocation hits the `visited` guard first. -/
def selfEffectFun : Nat → Bool → CSt → CSt × Except SignalSpec.JErr Unit
  | 0, _, st => (st, .error .fuelOut)
  | fuel + 1, nocall, st =>
    if st.visited then (st, .error (.reentry "Recursive loop detected"))
    else if nocall then
      (st, .error (.reentry "Calling an effect within a derived/effect callback is not allowed."))
    else if st.dropped = false ∧ st.checked < st.clock then
      if st.dirty then
        let r := selfEffectFun fuel true { st with visited := true, execs := st.execs + 1 }
        let st3 := { r.1 with visited := false }
        match r.2 with
        | .error e => (st3, .error e)
        | .ok _ =>
          ({ st3 with dirty := false, checked := st3.clock }, .ok ())
      else ({ st with checked := st.clock }, .ok ())
    else (st, .ok ())

/-- A dropped dependent node over one signal (id 1), for the witnesses. -/
def bDropSt : BSt :=
  { clock := 3, sval := fun _ => 1, scur := fun _ => 1, linked := fun _ => true
  , dirty := true, dropped := true, visited := false, checked := 0, current := 0
  , dval := some 2, execs := 4 }

/-- A dirty, never-dropped dynamic node about to run its self-referencing
callback, for the witnesses. -/
def cLoopSt : CSt :=
  { clock := 2, visited := false, dirty := true, dropped := false
  , checked := 0, current := 0, dval := none, execs := 0 }

end PartB

namespace SuspendSpec

/-- Modelled from the spec: the suspend/resume pair and `SuspendError` are
not part of the sources under `src/` (only the test file `part_003`
exercises `suspend()`/`resume()`/`SuspendError`).  Per the spec, the engine
carries a suspended flag; while suspended, reads return last-known cached
values without recomputing, invoking a leaf Effect throws `SuspendError`,
and recomputing a never-yet-computed Derived throws `SuspendError`. -/
structure SSt where
  suspended : Bool
  sval : Int
  dval : Option Int
  execs : Nat
  deriving DecidableEq, Repr

/-- Modelled from the spec: `suspend()` freezes recomputation. -/
def suspendOp (st : SSt) : SSt := { st with suspended := true }

/-- Modelled from the spec: `resume()` lifts the freeze. -/
def resumeOp (st : SSt) : SSt := { st with suspended := false }

/-- Modelled from the spec: reading a signal always returns its stored
value, also while suspended. -/
def readSignalS (st : SSt) : SSt × Except SignalSpec.JErr Int :=
  (st, .ok st.sval)

/-- Modelled from the spec: reading a derived while suspended returns the
last-known cached value without recomputing, and throws `SuspendError` if
the derived was never computed (no cache to serve); when not suspended the
calculation runs. -/
def readDerivedS (f : Int → Int) (st : SSt) : SSt × Except SignalSpec.JErr Int :=
  if st.suspended then
    match st.dval with
    | none => (st, .error (.suspendErr "Suspended"))
    | some v => (st, .ok v)
  else
    let v := f st.sval
    ({ st with dval := some v, execs := st.execs + 1 }, .ok v)

/-- Modelled from the spec: invoking a leaf effect while suspended throws
`SuspendError`; otherwise the action runs. -/
def invokeEffectS (st : SSt) : SSt × Except SignalSpec.JErr Unit :=
  if st.suspended then (st, .error (.suspendErr "Suspended"))
  else ({ st with execs := st.execs + 1 }, .ok ())

end SuspendSpec

namespace SignalSpec

/-- The calculation `(x, y) => x + y` in wrapped form. -/
def addFn : List Int → Int := fun vs => vs.getD 0 0 + vs.getD 1 0

/-- The calculation `(x) => x * 2` in wrapped form. -/
def mulFn : List Int → Int := fun vs => 2 * vs.getD 0 0

/-- `a = derived(s, t, (x, y) => x + y)` over `s = signal(1)` (id 1) and
`t = signal(1)` (id 2). -/
def aNode : VNode := .der 3 [.sig 1, .sig 2] addFn

/-- `b = derived(a, (x) => x * 2)`. -/
def bNode : VNode := .der 4 [aNode] mulFn

/-- Id environment of the example graph. -/
def envEx : Nat → VNode := fun j =>
  if j = 3 then aNode else if j = 4 then bNode else .sig j

/-- State right after `s = signal(1); t = signal(1)` and the construction of
`a` and `b`: each signal creation took a `nextN()`, the derived nodes start
at `current = checked = MIN_SEQ`. -/
def st0 : St :=
  { clock := 2
  , value := fun j => if j = 1 then some 1 else if j = 2 then some 1 else none
  , current := fun j => if j = 1 then 1 else if j = 2 then 2 else 0
  , checked := fun _ => 0
  , execs := fun _ => 0
  , events := [] }

/-- State after the write `s(5)`. -/
def stW : St := (sgetValue topGuard 1 (some 5) st0).1

/-- An effect node `effect(s, ...)` (id 5) over the example graph. -/
def eEx : ENode := ⟨5, [.sig 1]⟩

/-- Claim C4: writing a value that is `Object.is`-same as the stored one is
a complete no-op: the stored value, the node's `current` stamp, the clock
and the notification log are all unchanged (the write returns before the
notification point), and the call returns `void`. -/
theorem c4_equal_write_noop (st : St) (i : Nat) (v : Int)
    (h : st.value i = some v) :
    sgetValue topGuard i (some v) st = (st, .ok .wdone) := by
  simp [sgetValue, topGuard, h]

/-- Witness for C4 at `s(1)` on the example state, where `s` holds `1`. -/
theorem c4_equal_write_noop_witness :
    st0.value 1 = some 1 ∧ sgetValue topGuard 1 (some 1) st0 = (st0, .ok .wdone) :=
  ⟨rfl, c4_equal_write_noop st0 1 1 rfl⟩

/-- Claim C5: under the flags installed by `calcDerivedNode` around a
static-dependency derived calculation, manually reading a signal throws
`ReentryError`; under the flags installed by `actEffectNode` around an
effect action, the same read succeeds and returns the signal's current
value. -/
theorem c5_reentry_read_policing (st : St) (i : Nat) :
    sgetValue derivedCallbackGuard i none st =
      (st, .error (.reentry ERR_REENTRY_READ)) ∧
    sgetValue effectCallbackGuard i none st = (st, .ok (.rval (st.value i))) :=
  ⟨rfl, rfl⟩

/-- Claim C6 counterexample: the readonly facade only rejects truthy
arguments (`if (value) throw ...`), so the attempted write `r(0)` does not
throw at all — it is treated as a read and returns the stored value. -/
theorem c6_readonly_write_counterexample :
    getValue topGuard 1 (some 0) st0 = (st0, .ok (.rval (some 1))) := rfl

/-- Claim C6 (amended): a write attempt with a truthy value on a readonly
facade throws the `TypeError` "Cannot modify a readonly signal" — an error
distinct from every `ReentryError` — and leaves the state unchanged; calls
with falsy arguments (`0`, `undefined`, `null`) are instead treated as
reads, which also leave the state unchanged. -/
theorem c6_readonly_rejects_truthy_writes (st : St) (i : Nat) (v : Int)
    (hv : v ≠ 0) :
    getValue topGuard i (some v) st =
      (st, .error (.typeErr "Cannot modify a readonly signal")) ∧
    (∀ msg, JErr.typeErr "Cannot modify a readonly signal" ≠ JErr.reentry msg) ∧
    (getValue topGuard i (some 0) st).1 = st ∧
    (getValue topGuard i none st).1 = st := by
  refine ⟨?_, fun msg h => JErr.noConfusion h, rfl, rfl⟩
  simp [getValue, truthy, hv]

/-- Witness for the amended C6 at `r(9)` on the example state. -/
theorem c6_readonly_rejects_truthy_writes_witness :
    getValue topGuard 1 (some 9) st0 =
      (st0, .error (.typeErr "Cannot modify a readonly signal")) ∧
    (∀ msg, JErr.typeErr "Cannot modify a readonly signal" ≠ JErr.reentry msg) ∧
    (getValue topGuard 1 (some 0) st0).1 = st0 ∧
    (getValue topGuard 1 none st0).1 = st0 :=
  c6_readonly_rejects_truthy_writes st0 1 9 (by decide)

/-- Claim C10: calling a writable facade with `undefined`/`null` is a read:
it returns the stored value and leaves the whole state unchanged; moreover,
for every argument, the stored value after the call is either unchanged or
the (non-`undefined`) written value, so `undefined`/`null` can never be
stored through the setter. -/
theorem c10_undefined_arg_is_read (g : Guard) (st : St) (i : Nat) :
    sgetValue topGuard i none st = (st, .ok (.rval (st.value i))) ∧
    ∀ arg, (sgetValue g i arg st).1.value i = st.value i ∨
      ∃ v, arg = some v ∧ (sgetValue g i arg st).1.value i = some v := by
  refine ⟨rfl, ?_⟩
  intro arg
  by_cases hg : (g.denyReentry && !g.allowReentryReadWrite) = true
  · left
    simp [sgetValue, hg]
  · rcases arg with _ | v
    · left
      simp [sgetValue, hg]
    · by_cases hv : st.value i = some v
      · left
        simp [sgetValue, hg, hv]
      · right
        exact ⟨v, rfl, by simp [sgetValue, hg, hv, stWrite, upd]⟩

end SignalSpec

namespace SuspendSpec

/-- Claim C9: while suspended, invoking a leaf effect throws `SuspendError`
and reading a never-yet-computed derived throws `SuspendError`, while reads
of signals and of already-computed deriveds return the last-known cached
values without running any callback. -/
theorem c9_suspend_semantics (st : SSt) (f : Int → Int) (v : Int)
    (hs : st.suspended = true) :
    invokeEffectS st = (st, .error (.suspendErr "Suspended")) ∧
    (st.dval = none → readDerivedS f st = (st, .error (.suspendErr "Suspended"))) ∧
    (st.dval = some v → readDerivedS f st = (st, .ok v)) ∧
    readSignalS st = (st, .ok st.sval) := by
  refine ⟨by simp [invokeEffectS, hs], ?_, ?_, rfl⟩
  · intro h
    simp [readDerivedS, hs, h]
  · intro h
    simp [readDerivedS, hs, h]

end SuspendSpec

namespace SignalSpec

theorem upd_same {α : Type} (f : Nat → α) (i : Nat) (v : α) : upd f i v i = v := by
  simp [upd]

theorem upd_ne {α : Type} (f : Nat → α) {i j : Nat} (v : α) (h : j ≠ i) :
    upd f i v j = f j := by
  simp [upd, h]

theorem framePost_refl (st : St) (t : List Nat) : framePost st st t :=
  ⟨rfl, rfl, fun _ _ => ⟨rfl, rfl, rfl, rfl⟩⟩

theorem framePost_trans {st st1 st2 : St} {t : List Nat}
    (h1 : framePost st st1 t) (h2 : framePost st1 st2 t) : framePost st st2 t := by
  obtain ⟨a1, b1, c1⟩ := h1
  obtain ⟨a2, b2, c2⟩ := h2
  refine ⟨a2.trans a1, b2.trans b1, fun j hj => ?_⟩
  obtain ⟨v1, u1, k1, e1⟩ := c1 j hj
  obtain ⟨v2, u2, k2, e2⟩ := c2 j hj
  exact ⟨v2.trans v1, u2.trans u1, k2.trans k1, e2.trans e1⟩

theorem framePost_mono {st st' : St} {t t' : List Nat}
    (h : framePost st st' t) (hsub : ∀ j, j ∈ t → j ∈ t') : framePost st st' t' :=
  ⟨h.1, h.2.1, fun j hj => h.2.2 j (fun hin => hj (hsub j hin))⟩

mutual

/-- A recomputation touches only the derived ids below the node: the clock,
the event log and every other id's fields are preserved. -/
theorem frameNode : ∀ (n : VNode) (st : St) (check : Nat),
    framePost st (checkValueNode n st check).1 (derIds n)
  | .sig j, st, _check => framePost_refl st (derIds (.sig j))
  | .der i deps f, st, check => by
    have hdeps := frameList deps st check
    simp only [checkValueNode]
    by_cases h1 : st.checked i < check
    · simp only [if_pos h1]
      by_cases h2 : st.checked i < maxTrig st (triggersList deps)
      · simp only [if_pos h2]
        obtain ⟨ha, hb, hc⟩ := hdeps
        refine ⟨ha, hb, fun j hj => ?_⟩
        have hji : j ≠ i := fun h => hj (h ▸ List.mem_cons_self i (derIdsList deps))
        have hjd : j ∉ derIdsList deps := fun h => hj (List.mem_cons_of_mem i h)
        obtain ⟨v1, u1, k1, e1⟩ := hc j hjd
        exact ⟨(upd_ne _ _ hji).trans v1, (upd_ne _ _ hji).trans u1,
          (upd_ne _ _ hji).trans k1, (upd_ne _ _ hji).trans e1⟩
      · simp only [if_neg h2]
        refine ⟨rfl, rfl, fun j hj => ?_⟩
        have hji : j ≠ i := fun h => hj (h ▸ List.mem_cons_self i (derIdsList deps))
        exact ⟨rfl, rfl, upd_ne _ _ hji, rfl⟩
    · simp only [if_neg h1]
      exact framePost_refl st (derIds (.der i deps f))

theorem frameList : ∀ (ds : List VNode) (st : St) (check : Nat),
    framePost st (checkDeps ds st check).1 (derIdsList ds)
  | [], st, _check => framePost_refl st (derIdsList [])
  | d :: ds, st, check => by
    have h1 := frameNode d st check
    have h2 := frameList ds (checkValueNode d st check).1 check
    simp only [checkDeps]
    have h1' : framePost st (checkValueNode d st check).1 (derIdsList (d :: ds)) :=
      framePost_mono h1 (fun j hj => by
        simp only [derIdsList, List.mem_append]
        exact Or.inl hj)
    have h2' : framePost (checkValueNode d st check).1
        (checkDeps ds (checkValueNode d st check).1 check).1 (derIdsList (d :: ds)) :=
      framePost_mono h2 (fun j hj => by
        simp only [derIdsList, List.mem_append]
        exact Or.inr hj)
    exact framePost_trans h1' h2'

end

/-- The effect protocol touches only the effect's id and the derived ids
below its dependencies. -/
theorem frameEffect (e : ENode) (st : St) (check : Nat) :
    framePost st (checkEffectNode e st check) (e.id :: derIdsList e.deps) := by
  have hdeps := frameList e.deps st check
  simp only [checkEffectNode]
  by_cases h1 : st.checked e.id < check
  · simp only [if_pos h1]
    by_cases h2 : st.checked e.id < maxTrig st (triggersList e.deps)
    · simp only [if_pos h2]
      obtain ⟨ha, hb, hc⟩ := hdeps
      refine ⟨ha, hb, fun j hj => ?_⟩
      have hji : j ≠ e.id := fun h => hj (h ▸ List.mem_cons_self e.id (derIdsList e.deps))
      have hjd : j ∉ derIdsList e.deps := fun h => hj (List.mem_cons_of_mem e.id h)
      obtain ⟨v1, u1, k1, e1⟩ := hc j hjd
      exact ⟨v1, (upd_ne _ _ hji).trans u1, (upd_ne _ _ hji).trans k1,
        (upd_ne _ _ hji).trans e1⟩
    · simp only [if_neg h2]
      refine ⟨rfl, rfl, fun j hj => ?_⟩
      have hji : j ≠ e.id := fun h => hj (h ▸ List.mem_cons_self e.id (derIdsList e.deps))
      exact ⟨rfl, rfl, upd_ne _ _ hji, rfl⟩
  · simp only [if_neg h1]
    exact framePost_refl st _

/-- Claim C3: at an invocation with `check = currentVersion()` and
`check > this.checked`, on states satisfying the reachable-state invariants
`current ≤ checked` and "`maxTrigger ≤ checked` only when
`maxTrigger = current`" (under which the source's `maxTrigger > checked`
test coincides with the spec's `maxTrigger > current` test): if
`maxTrigger ≤ this.current` the callback is not executed and only
`this.checked` advances to `check`; otherwise the callback executes and
afterwards `this.current = maxTrigger` and `this.checked = check` — for
derived and effect nodes alike. -/
theorem c3_check_and_recompute (i : Nat) (deps : List VNode) (f : List Int → Int)
    (e : ENode) (st ste : St)
    (hni : i ∉ derIdsList deps)
    (hch : st.checked i < st.clock)
    (hcc : st.current i ≤ st.checked i)
    (hmc : maxTrig st (triggersList deps) ≤ st.checked i →
      maxTrig st (triggersList deps) = st.current i)
    (hni2 : e.id ∉ derIdsList e.deps)
    (hch2 : ste.checked e.id < ste.clock)
    (hcc2 : ste.current e.id ≤ ste.checked e.id)
    (hmc2 : maxTrig ste (triggersList e.deps) ≤ ste.checked e.id →
      maxTrig ste (triggersList e.deps) = ste.current e.id) :
    ((maxTrig st (triggersList deps) ≤ st.current i →
        checkDerivedNode i deps f st st.clock =
          ({ st with checked := upd st.checked i st.clock }, (st.value i).getD 0)) ∧
      (st.current i < maxTrig st (triggersList deps) →
        (checkDerivedNode i deps f st st.clock).1.execs i = st.execs i + 1 ∧
        (checkDerivedNode i deps f st st.clock).1.current i =
          maxTrig st (triggersList deps) ∧
        (checkDerivedNode i deps f st st.clock).1.checked i = st.clock)) ∧
    ((maxTrig ste (triggersList e.deps) ≤ ste.current e.id →
        checkEffectNode e ste ste.clock =
          { ste with checked := upd ste.checked e.id ste.clock }) ∧
      (ste.current e.id < maxTrig ste (triggersList e.deps) →
        (checkEffectNode e ste ste.clock).execs e.id = ste.execs e.id + 1 ∧
        (checkEffectNode e ste ste.clock).current e.id =
          maxTrig ste (triggersList e.deps) ∧
        (checkEffectNode e ste ste.clock).checked e.id = ste.clock)) := by
  constructor
  · constructor
    · intro hskip
      have h2 : ¬ st.checked i < maxTrig st (triggersList deps) :=
        not_lt.mpr (le_trans hskip hcc)
      simp only [checkDerivedNode, checkValueNode, if_pos hch, if_neg h2]
    · intro hlt
      have h2 : st.checked i < maxTrig st (triggersList deps) := by
        by_contra h
        exact absurd (hmc (not_lt.mp h)) (by omega)
      have hfr := frameList deps st st.clock
      simp only [checkDerivedNode, checkValueNode, if_pos hch, if_pos h2]
      refine ⟨?_, ?_, ?_⟩
      · show upd (checkDeps deps st st.clock).1.execs i
          ((checkDeps deps st st.clock).1.execs i + 1) i = st.execs i + 1
        rw [upd_same, (hfr.2.2 i hni).2.2.2]
      · exact upd_same _ _ _
      · exact upd_same _ _ _
  · constructor
    · intro hskip
      have h2 : ¬ ste.checked e.id < maxTrig ste (triggersList e.deps) :=
        not_lt.mpr (le_trans hskip hcc2)
      simp only [checkEffectNode, if_pos hch2, if_neg h2]
    · intro hlt
      have h2 : ste.checked e.id < maxTrig ste (triggersList e.deps) := by
        by_contra h
        exact absurd (hmc2 (not_lt.mp h)) (by omega)
      have hfr := frameList e.deps ste ste.clock
      simp only [checkEffectNode, if_pos hch2, if_pos h2]
      refine ⟨?_, ?_, ?_⟩
      · show upd (checkDeps e.deps ste ste.clock).1.execs e.id
          ((checkDeps e.deps ste ste.clock).1.execs e.id + 1) e.id = ste.execs e.id + 1
        rw [upd_same, (hfr.2.2 e.id hni2).2.2.2]
      · exact upd_same _ _ _
      · exact upd_same _ _ _

/-- Witness for C3: on the example state both the derived node `a` and the
effect node are in the "sources moved" case, so their callbacks run and the
stamps advance as specified. -/
theorem c3_check_and_recompute_witness :
    ((checkDerivedNode 3 [VNode.sig 1, VNode.sig 2] addFn st0 st0.clock).1.execs 3 = 1 ∧
      (checkDerivedNode 3 [VNode.sig 1, VNode.sig 2] addFn st0 st0.clock).1.current 3 = 2 ∧
      (checkDerivedNode 3 [VNode.sig 1, VNode.sig 2] addFn st0 st0.clock).1.checked 3 = 2) ∧
    ((checkEffectNode eEx st0 st0.clock).execs 5 = 1 ∧
      (checkEffectNode eEx st0 st0.clock).current 5 = 1 ∧
      (checkEffectNode eEx st0 st0.clock).checked 5 = 2) := by
  have h := c3_check_and_recompute 3 [VNode.sig 1, VNode.sig 2] addFn eEx st0 st0
    (by decide) (by decide) (by decide) (by decide)
    (by decide) (by decide) (by decide) (by decide)
  have hd := h.1.2 (by decide)
  have he := h.2.2 (by decide)
  refine ⟨⟨?_, ?_, ?_⟩, ⟨?_, ?_, ?_⟩⟩
  · rw [hd.1]
    decide
  · rw [hd.2.1]
    decide
  · rw [hd.2.2]
    decide
  · have h1 : (checkEffectNode eEx st0 st0.clock).execs 5 = st0.execs 5 + 1 := he.1
    rw [h1]
    decide
  · have h2 : (checkEffectNode eEx st0 st0.clock).current 5 =
      maxTrig st0 (triggersList eEx.deps) := he.2.1
    rw [h2]
    decide
  · have h3 : (checkEffectNode eEx st0 st0.clock).checked 5 = st0.clock := he.2.2
    rw [h3]
    decide

/-- Claim C2: when a derived or effect node is due for recomputation, its
first invocation runs the callback exactly once (ghost counter bumped by
one), and an immediately repeated invocation with no intervening write is a
pure cache hit: it returns the very same state and value, running no
callback at all. -/
theorem c2_idempotent_recompute (i : Nat) (deps : List VNode) (f : List Int → Int)
    (e : ENode) (st ste : St)
    (hni : i ∉ derIdsList deps)
    (hch : st.checked i < st.clock)
    (hmx : st.checked i < maxTrig st (triggersList deps))
    (hni2 : e.id ∉ derIdsList e.deps)
    (hch2 : ste.checked e.id < ste.clock)
    (hmx2 : ste.checked e.id < maxTrig ste (triggersList e.deps)) :
    ((checkDerivedNode i deps f st st.clock).1.execs i = st.execs i + 1 ∧
      checkDerivedNode i deps f (checkDerivedNode i deps f st st.clock).1
          (checkDerivedNode i deps f st st.clock).1.clock =
        checkDerivedNode i deps f st st.clock) ∧
    ((checkEffectNode e ste ste.clock).execs e.id = ste.execs e.id + 1 ∧
      checkEffectNode e (checkEffectNode e ste ste.clock)
          (checkEffectNode e ste ste.clock).clock =
        checkEffectNode e ste ste.clock) := by
  have hfr := frameList deps st st.clock
  have hfr2 := frameList e.deps ste ste.clock
  constructor
  · simp only [checkDerivedNode, checkValueNode, if_pos hch, if_pos hmx]
    refine ⟨?_, ?_⟩
    · show upd (checkDeps deps st st.clock).1.execs i
        ((checkDeps deps st st.clock).1.execs i + 1) i = st.execs i + 1
      rw [upd_same, (hfr.2.2 i hni).2.2.2]
    · have hclk : (checkDeps deps st st.clock).1.clock = st.clock := hfr.1
      have hnot : ¬ (st.clock < st.clock) := lt_irrefl _
      simp only [checkValueNode, hclk, upd_same, if_neg hnot, Option.getD_some]
  · simp only [checkEffectNode, if_pos hch2, if_pos hmx2]
    refine ⟨?_, ?_⟩
    · show upd (checkDeps e.deps ste ste.clock).1.execs e.id
        ((checkDeps e.deps ste ste.clock).1.execs e.id + 1) e.id = ste.execs e.id + 1
      rw [upd_same, (hfr2.2.2 e.id hni2).2.2.2]
    · have hclk : (checkDeps e.deps ste ste.clock).1.clock = ste.clock := hfr2.1
      have hnot : ¬ (ste.clock < ste.clock) := lt_irrefl _
      simp only [hclk, upd_same, if_neg hnot]

/-- Witness for C2 on the example state: the first invocation of `a` (and
of the effect) runs the callback once; the immediate second invocation is a
cache hit returning the same state and value. -/
theorem c2_idempotent_recompute_witness :
    ((checkDerivedNode 3 [VNode.sig 1, VNode.sig 2] addFn st0 st0.clock).1.execs 3 =
        st0.execs 3 + 1 ∧
      checkDerivedNode 3 [VNode.sig 1, VNode.sig 2] addFn
          (checkDerivedNode 3 [VNode.sig 1, VNode.sig 2] addFn st0 st0.clock).1
          (checkDerivedNode 3 [VNode.sig 1, VNode.sig 2] addFn st0 st0.clock).1.clock =
        checkDerivedNode 3 [VNode.sig 1, VNode.sig 2] addFn st0 st0.clock) ∧
    ((checkEffectNode eEx st0 st0.clock).execs 5 = st0.execs 5 + 1 ∧
      checkEffectNode eEx (checkEffectNode eEx st0 st0.clock)
          (checkEffectNode eEx st0 st0.clock).clock =
        checkEffectNode eEx st0 st0.clock) :=
  c2_idempotent_recompute 3 [VNode.sig 1, VNode.sig 2] addFn eEx st0 st0
    (by decide) (by decide) (by decide) (by decide) (by decide) (by decide)

end SignalSpec

namespace SuspendSpec

/-- Witness for C9 on concrete suspended states (one with an uninitialized
derived cache, one with a cached value). -/
theorem c9_suspend_semantics_witness :
    (invokeEffectS ⟨true, 42, none, 0⟩ =
      (⟨true, 42, none, 0⟩, .error (.suspendErr "Suspended"))) ∧
    (readDerivedS (fun x => x + 1) ⟨true, 42, none, 0⟩ =
      (⟨true, 42, none, 0⟩, .error (.suspendErr "Suspended"))) ∧
    (readDerivedS (fun x => x + 1) ⟨true, 42, some 7, 0⟩ =
      (⟨true, 42, some 7, 0⟩, .ok 7)) := by
  refine ⟨(c9_suspend_semantics ⟨true, 42, none, 0⟩ (fun x => x + 1) 0 rfl).1, ?_, ?_⟩
  · exact (c9_suspend_semantics ⟨true, 42, none, 0⟩ (fun x => x + 1) 0 rfl).2.1 rfl
  · exact (c9_suspend_semantics ⟨true, 42, some 7, 0⟩ (fun x => x + 1) 7 rfl).2.2.1 rfl

end SuspendSpec

namespace PartB

theorem stepB_dropped (deps : List Nat) (cb : List Int → Int) (op : BOp) (st : BSt)
    (h : st.dropped = true) :
    (stepB deps cb op st).dropped = true ∧
    (stepB deps cb op st).execs = st.execs ∧
    (stepB deps cb op st).dval = st.dval := by
  cases op with
  | write k v =>
    by_cases h1 : st.sval k = v
    · simp [stepB, wfunB, notifyB, h1, h]
    · by_cases h2 : st.linked k
      · simp [stepB, wfunB, notifyB, h1, h2, h]
      · simp [stepB, wfunB, notifyB, h1, h2, h]
  | invoke =>
    by_cases h1 : st.visited
    · simp [stepB, invokeDerB, h1, h]
    · simp [stepB, invokeDerB, h1, h]
  | dropIt =>
    exact ⟨rfl, rfl, rfl⟩

theorem stepBE_dropped (deps : List Nat) (op : BOp) (st : BSt)
    (h : st.dropped = true) :
    (stepBE deps op st).dropped = true ∧
    (stepBE deps op st).execs = st.execs := by
  cases op with
  | write k v =>
    by_cases h1 : st.sval k = v
    · simp [stepBE, wfunB, notifyB, h1, h]
    · by_cases h2 : st.linked k
      · simp [stepBE, wfunB, notifyB, h1, h2, h]
      · simp [stepBE, wfunB, notifyB, h1, h2, h]
  | invoke =>
    by_cases h1 : st.visited
    · simp [stepBE, invokeEffB, h1, h]
    · simp [stepBE, invokeEffB, h1, h]
  | dropIt =>
    exact ⟨rfl, rfl⟩

theorem runB_dropped (deps : List Nat) (cb : List Int → Int) (ops : List BOp)
    (st : BSt) (h : st.dropped = true) :
    (runB deps cb ops st).dropped = true ∧
    (runB deps cb ops st).execs = st.execs ∧
    (runB deps cb ops st).dval = st.dval := by
  induction ops generalizing st with
  | nil => exact ⟨h, rfl, rfl⟩
  | cons op ops ih =>
    obtain ⟨h1, h2, h3⟩ := stepB_dropped deps cb op st h
    obtain ⟨g1, g2, g3⟩ := ih (stepB deps cb op st) h1
    exact ⟨g1, g2.trans h2, g3.trans h3⟩

theorem runBE_dropped (deps : List Nat) (ops : List BOp)
    (st : BSt) (h : st.dropped = true) :
    (runBE deps ops st).dropped = true ∧
    (runBE deps ops st).execs = st.execs := by
  induction ops generalizing st with
  | nil => exact ⟨h, rfl⟩
  | cons op ops ih =>
    obtain ⟨h1, h2⟩ := stepBE_dropped deps op st h
    obtain ⟨g1, g2⟩ := ih (stepBE deps op st) h1
    exact ⟨g1, g2.trans h2⟩

/-- Claim C7: once a dependent node is dropped, no later sequence of
operations (writes to its source signals, direct or strategy-driven
invocations of its facade, further drops) ever runs its callback again or
changes its cached value, the node stays dropped forever, and `drop` itself
is idempotent — for derived and effect nodes alike. -/
theorem c7_drop_permanent (deps : List Nat) (cb : List Int → Int)
    (ops : List BOp) (st ste : BSt)
    (hd : st.dropped = true) (he : ste.dropped = true) :
    ((runB deps cb ops st).dropped = true ∧
      (runB deps cb ops st).execs = st.execs ∧
      (runB deps cb ops st).dval = st.dval) ∧
    ((runBE deps ops ste).dropped = true ∧
      (runBE deps ops ste).execs = ste.execs) ∧
    dropB st = st ∧ dropB (dropB ste) = dropB ste := by
  refine ⟨runB_dropped deps cb ops st hd, runBE_dropped deps ops ste he, ?_, ?_⟩
  · obtain ⟨c, sv, sc, l, di, dr, vi, ch, cu, dv, ex⟩ := st
    cases hd
    rfl
  · rfl

/-- Witness for C7: a concrete dropped node, a concrete operation sequence
(write, invoke, drop again, invoke): the counter and cache never move. -/
theorem c7_drop_permanent_witness :
    ((runB [1] (fun vs => vs.getD 0 0) [.write 1 9, .invoke, .dropIt, .invoke] bDropSt).dropped = true ∧
      (runB [1] (fun vs => vs.getD 0 0) [.write 1 9, .invoke, .dropIt, .invoke] bDropSt).execs = bDropSt.execs ∧
      (runB [1] (fun vs => vs.getD 0 0) [.write 1 9, .invoke, .dropIt, .invoke] bDropSt).dval = bDropSt.dval) ∧
    ((runBE [1] [.write 1 9, .invoke, .dropIt, .invoke] bDropSt).dropped = true ∧
      (runBE [1] [.write 1 9, .invoke, .dropIt, .invoke] bDropSt).execs = bDropSt.execs) ∧
    dropB bDropSt = bDropSt ∧ dropB (dropB bDropSt) = dropB bDropSt :=
  c7_drop_permanent [1] (fun vs => vs.getD 0 0) [.write 1 9, .invoke, .dropIt, .invoke]
    bDropSt bDropSt rfl rfl

/-- Claim C8: a dynamic dependent node whose callback re-enters its own
facade (directly, i.e. a recursive loop) fails with the
`ReentryError`-family "Recursive loop detected" error for every sufficient
fuel (so the engine neither recurses unboundedly nor loops), the `visited`
guard flag is cleared again in the final state (only the ghost
callback-entry counter moved), and the error leaves `dirty`/`checked`
untouched — for derived and effect nodes alike. -/
theorem c8_cycle_detection (fuel : Nat) (st : CSt)
    (hv : st.visited = false) (hd : st.dropped = false)
    (hdi : st.dirty = true) (hck : st.checked < st.clock) :
    selfDerivedValue (fuel + 2) st =
      ({ st with execs := st.execs + 1 },
        .error (.reentry "Recursive loop detected")) ∧
    selfEffectFun (fuel + 2) false st =
      ({ st with execs := st.execs + 1 },
        .error (.reentry "Recursive loop detected")) := by
  obtain ⟨clock, visited, dirty, dropped, checked, current, dval, execs⟩ := st
  simp only at hv hd hdi hck
  subst hv
  subst hd
  subst hdi
  constructor
  · simp [selfDerivedValue, hck]
  · simp [selfEffectFun, hck]

/-- Witness for C8 on the concrete dirty node: the invocation reports the
loop instead of diverging, and the state keeps `visited = false`. -/
theorem c8_cycle_detection_witness :
    selfDerivedValue 2 cLoopSt =
      ({ cLoopSt with execs := 1 }, .error (.reentry "Recursive loop detected")) ∧
    selfEffectFun 2 false cLoopSt =
      ({ cLoopSt with execs := 1 }, .error (.reentry "Recursive loop detected")) :=
  c8_cycle_detection 0 cLoopSt rfl rfl rfl (by decide)

end PartB

namespace SignalSpec

theorem subs_self : ∀ n : VNode, n ∈ subs n
  | .sig _ => List.mem_cons_self _ _
  | .der _ _ _ => List.mem_cons_self _ _

mutual

theorem subs_closed_node : ∀ (n m : VNode), m ∈ subs n → ∀ x ∈ subs m, x ∈ subs n
  | .sig _, m, hm, x, hx => by
    simp only [subs, List.mem_singleton] at hm
    subst hm
    exact hx
  | .der _ deps f, m, hm, x, hx => by
    simp only [subs, List.mem_cons] at hm
    rcases hm with hm | hm
    · subst hm
      exact hx
    · exact List.mem_cons_of_mem _ (subs_closed_list deps m hm x hx)

theorem subs_closed_list : ∀ (ds : List VNode) (m : VNode), m ∈ subsList ds →
    ∀ x ∈ subs m, x ∈ subsList ds
  | [], m, hm, x, _hx => by simp [subsList] at hm
  | d :: ds, m, hm, x, hx => by
    simp only [subsList, List.mem_append] at hm ⊢
    rcases hm with hm | hm
    · exact Or.inl (subs_closed_node d m hm x hx)
    · exact Or.inr (subs_closed_list ds m hm x hx)

end

mutual

theorem sig_mem_of_trigger : ∀ (n : VNode) (j : Nat), j ∈ triggers n → VNode.sig j ∈ subs n
  | .sig _, j, hj => by
    simp only [triggers, List.mem_singleton] at hj
    subst hj
    exact List.mem_cons_self _ _
  | .der _ deps _, j, hj => by
    simp only [triggers] at hj
    exact List.mem_cons_of_mem _ (sig_mem_of_triggerList deps j hj)

theorem sig_mem_of_triggerList : ∀ (ds : List VNode) (j : Nat), j ∈ triggersList ds →
    VNode.sig j ∈ subsList ds
  | [], j, hj => by simp [triggersList] at hj
  | d :: ds, j, hj => by
    simp only [triggersList, List.mem_append] at hj
    simp only [subsList, List.mem_append]
    rcases hj with hj | hj
    · exact Or.inl (sig_mem_of_trigger d j hj)
    · exact Or.inr (sig_mem_of_triggerList ds j hj)

end

mutual

theorem der_mem_of_derIds : ∀ (n : VNode) (j : Nat), j ∈ derIds n →
    ∃ deps f, VNode.der j deps f ∈ subs n
  | .sig _, j, hj => by simp [derIds] at hj
  | .der _ deps f, j, hj => by
    simp only [derIds, List.mem_cons] at hj
    rcases hj with hj | hj
    · subst hj
      exact ⟨deps, f, List.mem_cons_self _ _⟩
    · obtain ⟨deps', f', hm⟩ := der_mem_of_derIdsList deps j hj
      exact ⟨deps', f', List.mem_cons_of_mem _ hm⟩

theorem der_mem_of_derIdsList : ∀ (ds : List VNode) (j : Nat), j ∈ derIdsList ds →
    ∃ deps f, VNode.der j deps f ∈ subsList ds
  | [], j, hj => by simp [derIdsList] at hj
  | d :: ds, j, hj => by
    simp only [derIdsList, List.mem_append] at hj
    rcases hj with hj | hj
    · obtain ⟨deps', f', hm⟩ := der_mem_of_derIds d j hj
      exact ⟨deps', f', by simp only [subsList, List.mem_append]; exact Or.inl hm⟩
    · obtain ⟨deps', f', hm⟩ := der_mem_of_derIdsList ds j hj
      exact ⟨deps', f', by simp only [subsList, List.mem_append]; exact Or.inr hm⟩

end

theorem agree_uniq {env : Nat → VNode} {U : List VNode} (hag : Agree env U)
    {m1 m2 : VNode} (h1 : m1 ∈ subsList U) (h2 : m2 ∈ subsList U)
    (hid : vid m1 = vid m2) : m1 = m2 := by
  have e1 := hag m1 h1
  have e2 := hag m2 h2
  rw [← e1, ← e2, hid]

theorem foldl_max_le (st : St) (ts : List Nat) (acc b : Nat) (hacc : acc ≤ b)
    (h : ∀ j ∈ ts, st.current j ≤ b) :
    ts.foldl (fun m j => max m (st.current j)) acc ≤ b := by
  induction ts generalizing acc with
  | nil => exact hacc
  | cons t ts ih =>
    simp only [List.foldl_cons]
    exact ih _ (max_le hacc (h t (List.mem_cons_self t ts)))
      (fun j hj => h j (List.mem_cons_of_mem _ hj))

theorem maxTrig_le {st : St} {ts : List Nat} {b : Nat}
    (h : ∀ j ∈ ts, st.current j ≤ b) : maxTrig st ts ≤ b :=
  foldl_max_le st ts 0 b (Nat.zero_le b) h

theorem foldl_max_congr (st st' : St) (ts : List Nat) (acc : Nat)
    (h : ∀ j ∈ ts, st'.current j = st.current j) :
    ts.foldl (fun m j => max m (st'.current j)) acc =
      ts.foldl (fun m j => max m (st.current j)) acc := by
  induction ts generalizing acc with
  | nil => rfl
  | cons t ts ih =>
    simp only [List.foldl_cons]
    rw [h t (List.mem_cons_self t ts)]
    exact ih _ (fun j hj => h j (List.mem_cons_of_mem _ hj))

theorem maxTrig_congr (st st' : St) (ts : List Nat)
    (h : ∀ j ∈ ts, st'.current j = st.current j) :
    maxTrig st' ts = maxTrig st ts :=
  foldl_max_congr st st' ts 0 h

mutual

theorem denote_stable : ∀ (st st' : St) (n : VNode),
    (∀ j ∈ triggers n, st'.value j = st.value j) → denote st' n = denote st n
  | st, st', .sig j, h => by
    simp only [denote]
    rw [h j (List.mem_cons_self j [])]
  | st, st', .der i deps f, h => by
    simp only [denote]
    rw [denoteList_stable st st' deps (by
      intro j hj
      exact h j (by simpa [triggers] using hj))]

theorem denoteList_stable : ∀ (st st' : St) (ds : List VNode),
    (∀ j ∈ triggersList ds, st'.value j = st.value j) →
      denoteList st' ds = denoteList st ds
  | _st, _st', [], _h => rfl
  | st, st', d :: ds, h => by
    simp only [denoteList]
    rw [denote_stable st st' d (by
        intro j hj
        exact h j (by simp only [triggersList, List.mem_append]; exact Or.inl hj)),
      denoteList_stable st st' ds (by
        intro j hj
        exact h j (by simp only [triggersList, List.mem_append]; exact Or.inr hj))]

end

theorem checkValueNode_noop (i : Nat) (deps : List VNode) (f : List Int → Int)
    (st : St) (check : Nat) (h1 : ¬ st.checked i < check) :
    checkValueNode (.der i deps f) st check = (st, (st.value i).getD 0) := by
  simp only [checkValueNode, if_neg h1]

theorem checkValueNode_skip (i : Nat) (deps : List VNode) (f : List Int → Int)
    (st : St) (check : Nat) (h1 : st.checked i < check)
    (h2 : ¬ st.checked i < maxTrig st (triggersList deps)) :
    checkValueNode (.der i deps f) st check = (stSkip i st check, (st.value i).getD 0) := by
  simp only [checkValueNode, if_pos h1, if_neg h2]
  rfl

theorem checkValueNode_recompute (i : Nat) (deps : List VNode) (f : List Int → Int)
    (st : St) (check : Nat) (h1 : st.checked i < check)
    (h2 : st.checked i < maxTrig st (triggersList deps)) :
    checkValueNode (.der i deps f) st check =
      (stRecompute i deps f st check, f (checkDeps deps st check).2) := by
  simp only [checkValueNode, if_pos h1, if_pos h2]
  rfl

/-- A node keeps its cache coherence when moving to a state that agrees on
its own fields and on its triggers' values and stamps. -/
theorem cohAt_transfer (stA stB : St) (m : VNode)
    (hval : ∀ j ∈ triggers m, stB.value j = stA.value j)
    (hcur : ∀ j ∈ triggers m, stB.current j = stA.current j)
    (hck : stB.checked (vid m) = stA.checked (vid m))
    (hvm : stB.value (vid m) = stA.value (vid m))
    (h : cohAt stA m) : cohAt stB m := by
  cases m with
  | sig j => trivial
  | der i' deps' f' =>
    simp only [cohAt] at h ⊢
    simp only [vid] at hck hvm
    intro hle
    have hmx : maxTrig stB (triggersList deps') = maxTrig stA (triggersList deps') :=
      maxTrig_congr stA stB _ (by
        intro j hj
        exact hcur j (by simpa [triggers] using hj))
    have hden : denoteList stB deps' = denoteList stA deps' :=
      denoteList_stable stA stB deps' (by
        intro j hj
        exact hval j (by simpa [triggers] using hj))
    rw [hvm, hden]
    exact h (by rw [← hmx, ← hck]; exact hle)

end SignalSpec

namespace SignalSpec

mutual

/-- Reading any value node at the current version returns its denotation
(the pure function of the latest source values), and preserves the clock
bounds and cache coherence of the whole universe. -/
theorem glitchNode : ∀ (env : Nat → VNode) (U : List VNode) (n : VNode) (st : St)
    (check : Nat), check = st.clock → Agree env U →
    (∀ x ∈ subs n, x ∈ subsList U) → ClockInv U st → Coh U st →
    (checkValueNode n st check).2 = denote st n ∧
    ClockInv U (checkValueNode n st check).1 ∧
    Coh U (checkValueNode n st check).1
  | _env, _U, .sig _j, _st, _check, _hck, _hag, _hsub, hclk, hcoh =>
    ⟨rfl, hclk, hcoh⟩
  | env, U, .der i deps f, st, check, hck, hag, hsub, hclk, hcoh => by
    subst hck
    have hmemn : VNode.der i deps f ∈ subsList U := hsub _ (subs_self _)
    have hcohn := hcoh _ hmemn
    simp only [cohAt] at hcohn
    have htrigU : ∀ j ∈ triggersList deps, VNode.sig j ∈ subsList U := by
      intro j hj
      exact hsub _ (List.mem_cons_of_mem _ (sig_mem_of_triggerList deps j hj))
    have hmx_clock : maxTrig st (triggersList deps) ≤ st.clock := by
      apply maxTrig_le
      intro j hj
      have h := hclk _ (htrigU j hj)
      simpa only [clockAt] using h
    by_cases h1 : st.checked i < st.clock
    · by_cases h2 : st.checked i < maxTrig st (triggersList deps)
      · -- sources moved: recompute after recursively updating the dependencies
        rw [checkValueNode_recompute i deps f st st.clock h1 h2]
        have hsubL : ∀ x ∈ subsList deps, x ∈ subsList U := by
          intro x hx
          exact hsub _ (List.mem_cons_of_mem _ hx)
        obtain ⟨ihv, ihclk, ihcoh⟩ :=
          glitchList env U deps st st.clock rfl hag hsubL hclk hcoh
        obtain ⟨hfc, _hfe, hfj⟩ := frameList deps st st.clock
        have hsig_ne_i : ∀ j, VNode.sig j ∈ subsList U → j ≠ i := by
          intro j hjU e
          subst e
          exact VNode.noConfusion (agree_uniq hag hjU hmemn rfl)
        have hsig_not_der : ∀ j, VNode.sig j ∈ subsList U → j ∉ derIdsList deps := by
          intro j hjU hjd
          obtain ⟨deps', f', hm⟩ := der_mem_of_derIdsList deps j hjd
          exact VNode.noConfusion (agree_uniq hag hjU (hsubL _ hm) rfl)
        refine ⟨?_, ?_, ?_⟩
        · show f (checkDeps deps st st.clock).2 = denote st (VNode.der i deps f)
          rw [ihv]
          rfl
        · show ClockInv U (stRecompute i deps f st st.clock)
          intro m hm
          have hold := ihclk m hm
          cases m with
          | sig j =>
            have hji : j ≠ i := hsig_ne_i j hm
            simp only [clockAt] at hold ⊢
            simp only [stRecompute]
            rw [upd_ne _ _ hji]
            exact hold
          | der i' deps' f' =>
            simp only [clockAt] at hold ⊢
            simp only [stRecompute]
            by_cases hii : i' = i
            · subst hii
              rw [upd_same, hfc]
            · rw [upd_ne _ _ hii]
              exact hold
        · show Coh U (stRecompute i deps f st st.clock)
          intro m hm
          by_cases hvm : vid m = i
          · have hmn : m = VNode.der i deps f := agree_uniq hag hm hmemn hvm
            subst hmn
            simp only [cohAt]
            intro _hle
            have hv3 : (stRecompute i deps f st st.clock).value i =
                some (f (checkDeps deps st st.clock).2) := by
              simp only [stRecompute]
              exact upd_same _ _ _
            have hden3 : denoteList (stRecompute i deps f st st.clock) deps =
                denoteList st deps := by
              apply denoteList_stable
              intro j hj
              have hjU := htrigU j hj
              have hji : j ≠ i := hsig_ne_i j hjU
              have hjd : j ∉ derIdsList deps := hsig_not_der j hjU
              have hstep : (stRecompute i deps f st st.clock).value j =
                  (checkDeps deps st st.clock).1.value j := by
                simp only [stRecompute]
                exact upd_ne _ _ hji
              rw [hstep, (hfj j hjd).1]
            rw [hv3, ihv, hden3]
          · have hold := ihcoh m hm
            have hsigm : ∀ j ∈ triggers m, VNode.sig j ∈ subsList U := by
              intro j hj
              exact subs_closed_list U m hm _ (sig_mem_of_trigger m j hj)
            refine cohAt_transfer _ _ m ?_ ?_ ?_ ?_ hold
            · intro j hj
              have hji : j ≠ i := hsig_ne_i j (hsigm j hj)
              simp only [stRecompute]
              exact upd_ne _ _ hji
            · intro j hj
              have hji : j ≠ i := hsig_ne_i j (hsigm j hj)
              simp only [stRecompute]
              exact upd_ne _ _ hji
            · simp only [stRecompute]
              exact upd_ne _ _ hvm
            · simp only [stRecompute]
              exact upd_ne _ _ hvm
      · -- sources unchanged since the last actual recompute: only advance checked
        rw [checkValueNode_skip i deps f st st.clock h1 h2]
        refine ⟨?_, ?_, ?_⟩
        · show (st.value i).getD 0 = denote st (VNode.der i deps f)
          rw [hcohn (not_lt.mp h2)]
          rfl
        · show ClockInv U (stSkip i st st.clock)
          intro m hm
          have hold := hclk m hm
          cases m with
          | sig j => exact hold
          | der i' deps' f' =>
            simp only [clockAt] at hold ⊢
            simp only [stSkip]
            by_cases hii : i' = i
            · subst hii
              rw [upd_same]
            · rw [upd_ne _ _ hii]
              exact hold
        · show Coh U (stSkip i st st.clock)
          intro m hm
          by_cases hvm : vid m = i
          · have hmn : m = VNode.der i deps f := agree_uniq hag hm hmemn hvm
            subst hmn
            simp only [cohAt]
            intro _hle
            have hv : (stSkip i st st.clock).value i = st.value i := rfl
            have hden : denoteList (stSkip i st st.clock) deps = denoteList st deps :=
              denoteList_stable st _ deps (fun _ _ => rfl)
            rw [hv, hcohn (not_lt.mp h2), hden]
          · have hold := hcoh m hm
            refine cohAt_transfer st (stSkip i st st.clock) m ?_ ?_ ?_ ?_ hold
            · intro j _
              rfl
            · intro j _
              rfl
            · simp only [stSkip]
              exact upd_ne _ _ hvm
            · rfl
    · -- nothing moved forward at all: cheap short-circuit
      rw [checkValueNode_noop i deps f st st.clock h1]
      refine ⟨?_, hclk, hcoh⟩
      have hle : maxTrig st (triggersList deps) ≤ st.checked i :=
        le_trans hmx_clock (not_lt.mp h1)
      show (st.value i).getD 0 = denote st (VNode.der i deps f)
      rw [hcohn hle]
      rfl

theorem glitchList : ∀ (env : Nat → VNode) (U : List VNode) (ds : List VNode) (st : St)
    (check : Nat), check = st.clock → Agree env U →
    (∀ x ∈ subsList ds, x ∈ subsList U) → ClockInv U st → Coh U st →
    (checkDeps ds st check).2 = denoteList st ds ∧
    ClockInv U (checkDeps ds st check).1 ∧
    Coh U (checkDeps ds st check).1
  | _env, _U, [], _st, _check, _hck, _hag, _hsub, hclk, hcoh => ⟨rfl, hclk, hcoh⟩
  | env, U, d :: ds, st, check, hck, hag, hsub, hclk, hcoh => by
    subst hck
    have hsubd : ∀ x ∈ subs d, x ∈ subsList U := by
      intro x hx
      exact hsub _ (by simp only [subsList, List.mem_append]; exact Or.inl hx)
    have hsubds : ∀ x ∈ subsList ds, x ∈ subsList U := by
      intro x hx
      exact hsub _ (by simp only [subsList, List.mem_append]; exact Or.inr hx)
    obtain ⟨ihv, ihclk, ihcoh⟩ := glitchNode env U d st st.clock rfl hag hsubd hclk hcoh
    obtain ⟨hfc, _hfe, hfj⟩ := frameNode d st st.clock
    obtain ⟨ihv2, ihclk2, ihcoh2⟩ := glitchList env U ds (checkValueNode d st st.clock).1
      st.clock hfc.symm hag hsubds ihclk ihcoh
    have hden2 : denoteList (checkValueNode d st st.clock).1 ds = denoteList st ds := by
      apply denoteList_stable
      intro j hj
      have hjU : VNode.sig j ∈ subsList U := hsubds _ (sig_mem_of_triggerList ds j hj)
      have hjd : j ∉ derIds d := by
        intro hjd'
        obtain ⟨deps', f', hm⟩ := der_mem_of_derIds d j hjd'
        exact VNode.noConfusion (agree_uniq hag hjU (hsubd _ hm) rfl)
      exact (hfj j hjd).1
    simp only [checkDeps]
    refine ⟨?_, ihclk2, ihcoh2⟩
    simp only [denoteList]
    rw [ihv, ihv2, hden2]

end

end SignalSpec

namespace SignalSpec

/-- Claim C1: glitch-freedom.  For every graph (a universe `U` of nodes with
consistent ids) and every state satisfying the reachable-state invariants
(version stamps bounded by the clock, caches coherent — both hold after any
sequence of constructions and successful writes), invoking a derived node's
read entry point returns exactly its calculation applied (recursively,
through upstream deriveds) to the latest values of its transitive source
dependencies, i.e. its denotation at the moment of the read. -/
theorem c1_glitch_freedom (env : Nat → VNode) (U : List VNode) (i : Nat)
    (deps : List VNode) (f : List Int → Int) (st : St)
    (hag : Agree env U) (hmem : VNode.der i deps f ∈ subsList U)
    (hclk : ClockInv U st) (hcoh : Coh U st) :
    (calcDerivedNode topGuard i deps f none st).2 =
      Except.ok (denote st (VNode.der i deps f)) := by
  have hsub : ∀ x ∈ subs (VNode.der i deps f), x ∈ subsList U :=
    subs_closed_list U _ hmem
  have h := (glitchNode env U (VNode.der i deps f) st st.clock rfl hag hsub hclk hcoh).1
  show Except.ok (checkValueNode (VNode.der i deps f) st st.clock).2 =
    Except.ok (denote st (VNode.der i deps f))
  rw [h]

/-- Witness for C1: `s = signal(1); t = signal(1);
a = derived(s, t, (x, y) => x + y); b = derived(a, x => x * 2)`; after the
write `s(5)` the read `b()` returns `12` — the fresh sum `6` doubled, never
the stale intermediate `4`. -/
theorem c1_glitch_freedom_witness :
    (calcDerivedNode topGuard 4 [aNode] mulFn none stW).2 = Except.ok 12 := by
  have hlist : subsList [bNode] = [bNode, aNode, VNode.sig 1, VNode.sig 2] := rfl
  have hag : Agree envEx [bNode] := by
    intro m hm
    rw [hlist] at hm
    simp only [List.mem_cons, List.not_mem_nil, or_false] at hm
    rcases hm with rfl | rfl | rfl | rfl
    · rfl
    · rfl
    · rfl
    · rfl
  have hmem : VNode.der 4 [aNode] mulFn ∈ subsList [bNode] := by
    rw [hlist]
    exact List.mem_cons_self _ _
  have hclk : ClockInv [bNode] stW := by
    intro m hm
    rw [hlist] at hm
    simp only [List.mem_cons, List.not_mem_nil, or_false] at hm
    rcases hm with rfl | rfl | rfl | rfl
    · show stW.checked 4 ≤ stW.clock
      decide
    · show stW.checked 3 ≤ stW.clock
      decide
    · show stW.current 1 ≤ stW.clock
      decide
    · show stW.current 2 ≤ stW.clock
      decide
  have hcoh : Coh [bNode] stW := by
    intro m hm
    rw [hlist] at hm
    simp only [List.mem_cons, List.not_mem_nil, or_false] at hm
    rcases hm with rfl | rfl | rfl | rfl
    · intro h
      exact absurd h (by decide)
    · intro h
      exact absurd h (by decide)
    · trivial
    · trivial
  have h := c1_glitch_freedom envEx [bNode] 4 [aNode] mulFn stW hag hmem hclk hcoh
  rw [h]
  have h12 : denote stW (VNode.der 4 [aNode] mulFn) = 12 := by decide
  rw [h12]

end SignalSpec

namespace SignalSpec

theorem foldl_max_ge_acc (st : St) (ts : List Nat) (acc : Nat) :
    acc ≤ ts.foldl (fun m j => max m (st.current j)) acc := by
  induction ts generalizing acc with
  | nil => exact le_rfl
  | cons t ts ih =>
    simp only [List.foldl_cons]
    exact le_trans (le_max_left _ _) (ih _)

theorem le_maxTrig {st : St} {ts : List Nat} {j : Nat} (hj : j ∈ ts) :
    st.current j ≤ maxTrig st ts := by
  unfold maxTrig
  generalize (0 : Nat) = acc
  induction ts generalizing acc with
  | nil => cases hj
  | cons t ts ih =>
    simp only [List.foldl_cons]
    rcases List.mem_cons.mp hj with rfl | hj'
    · exact le_trans (le_max_right _ _) (foldl_max_ge_acc st ts _)
    · exact ih hj' _

/-- A successful write through the writable facade preserves the
reachable-state invariants under which glitch-freedom is proved: stamps
stay bounded by the clock and every cache stays coherent (a cache whose
trigger set contains the written signal becomes trivially incoherent-proof,
because the fresh stamp exceeds every `checked`). -/
theorem sgetValue_preserves_inv (env : Nat → VNode) (U : List VNode) (k : Nat)
    (arg : Option Int) (st : St) (hag : Agree env U)
    (hsig : VNode.sig k ∈ subsList U)
    (hclk : ClockInv U st) (hcoh : Coh U st) :
    ClockInv U (sgetValue topGuard k arg st).1 ∧
    Coh U (sgetValue topGuard k arg st).1 := by
  rcases arg with _ | v
  · exact ⟨hclk, hcoh⟩
  · by_cases hv : st.value k = some v
    · have hst : (sgetValue topGuard k (some v) st).1 = st := by
        simp [sgetValue, topGuard, hv]
      rw [hst]
      exact ⟨hclk, hcoh⟩
    · have hst : (sgetValue topGuard k (some v) st).1 = stWrite k v st := by
        simp [sgetValue, topGuard, hv]
      rw [hst]
      constructor
      · intro m hm
        have hold := hclk m hm
        cases m with
        | sig j =>
          simp only [clockAt] at hold ⊢
          simp only [stWrite]
          by_cases hjk : j = k
          · subst hjk
            rw [upd_same]
          · rw [upd_ne _ _ hjk]
            exact le_trans hold (Nat.le_succ _)
        | der i' deps' f' =>
          simp only [clockAt] at hold ⊢
          simp only [stWrite]
          exact le_trans hold (Nat.le_succ _)
      · intro m hm
        cases m with
        | sig j => trivial
        | der i' deps' f' =>
          have hne_k : i' ≠ k := by
            intro e
            subst e
            exact VNode.noConfusion (agree_uniq hag hm hsig rfl)
          by_cases hkmem : k ∈ triggersList deps'
          · simp only [cohAt]
            intro hle
            exfalso
            have h1 : (stWrite k v st).current k = st.clock + 1 := by
              simp only [stWrite]
              exact upd_same _ _ _
            have h2 : st.clock + 1 ≤ maxTrig (stWrite k v st) (triggersList deps') := by
              rw [← h1]
              exact le_maxTrig hkmem
            have h3 : (stWrite k v st).checked i' = st.checked i' := rfl
            have h4 := hclk _ hm
            simp only [clockAt] at h4
            rw [h3] at hle
            omega
          · have hold := hcoh _ hm
            refine cohAt_transfer st (stWrite k v st) _ ?_ ?_ ?_ ?_ hold
            · intro j hj
              have hjk : j ≠ k := fun e => hkmem (e ▸ hj)
              simp only [stWrite]
              exact upd_ne _ _ hjk
            · intro j hj
              have hjk : j ≠ k := fun e => hkmem (e ▸ hj)
              simp only [stWrite]
              exact upd_ne _ _ hjk
            · rfl
            · simp only [stWrite]
              exact upd_ne _ _ hne_k

end SignalSpec
